import Mathlib

/-!
Verification of the minesweeper inference engine (`minesweeper.py`).

The embedding mirrors the `Sentence` and `MinesweeperAI` classes: a cell is a
pair of integers, a sentence value is a finite set of cells together with an
integer count, and the AI state carries the grid dimensions, the three derived
cell sets and the ordered knowledge list.  Python object identity, which the
subset-inference loop observes through `is`, is modeled by tagging each list
element with a unique natural number; Python's semantics of mutating a list
while iterating over it (`remove`/`append` inside `for ... in list`) is modeled
by explicit index-driven recursion, with fuel because the raw loop is not
structurally terminating.
-/

namespace MinesweeperAI

/-- A board cell, as the Python `(row, col)` tuple of ints. -/
abbrev Cell : Type := ℤ × ℤ

/-- The value of a `Sentence`: its cell set and its mine count
(`self.cells`, `self.count`).  Two Python sentences are `==` iff their
values are equal. -/
abbrev SVal : Type := Finset Cell × ℤ

/-- A sentence as it lives in the knowledge list during the inference pass:
a value together with a tag standing for Python object identity. -/
abbrev TSent : Type := ℕ × SVal

/-- The state of the `MinesweeperAI` object. -/
structure AIState where
  height : ℤ
  width : ℤ
  moves_made : Finset Cell
  mines : Finset Cell
  safes : Finset Cell
  knowledge : List SVal
deriving DecidableEq

/-- The initial AI state (`MinesweeperAI.__init__`). -/
def initState (h w : ℤ) : AIState :=
  { height := h, width := w, moves_made := ∅, mines := ∅, safes := ∅, knowledge := [] }

/-- Mirrors `Sentence.known_mines`: all cells are mines iff the count equals the
number of cells; otherwise `None`. -/
def known_mines (v : SVal) : Option (Finset Cell) :=
  if v.2 = (v.1.card : ℤ) then some v.1 else none

/-- Mirrors `Sentence.known_safes`: all cells are safe iff the count is zero;
otherwise `None`. -/
def known_safes (v : SVal) : Option (Finset Cell) :=
  if v.2 = 0 then some v.1 else none

/-- Mirrors `Sentence.mark_mine`: if the cell is present, remove it and
decrement the count. -/
def sentMarkMine (v : SVal) (c : Cell) : SVal :=
  if c ∈ v.1 then (v.1.erase c, v.2 - 1) else v

/-- Mirrors `Sentence.mark_safe`: if the cell is present, remove it (count
unchanged). -/
def sentMarkSafe (v : SVal) (c : Cell) : SVal :=
  if c ∈ v.1 then (v.1.erase c, v.2) else v

/-- Mirrors `MinesweeperAI.mark_mine`: record the mine and update every
sentence. -/
def markMineKB (s : AIState) (c : Cell) : AIState :=
  { s with mines := insert c s.mines,
           knowledge := s.knowledge.map (fun v => sentMarkMine v c) }

/-- Mirrors `MinesweeperAI.mark_safe`: record the safe cell and update every
sentence. -/
def markSafeKB (s : AIState) (c : Cell) : AIState :=
  { s with safes := insert c s.safes,
           knowledge := s.knowledge.map (fun v => sentMarkSafe v c) }

instance : LeftCommutative (fun (c : Cell) (s : AIState) => markSafeKB s c) := by
  constructor
  intro c₁ c₂ s
  have he : ∀ (v : SVal) (c : Cell), sentMarkSafe v c = (v.1.erase c, v.2) := by
    intro v c
    by_cases h : c ∈ v.1
    · simp [sentMarkSafe, h]
    · simp [sentMarkSafe, h, Finset.erase_eq_of_not_mem h]
  simp only [markSafeKB, List.map_map]
  refine AIState.mk.injEq .. ▸ ⟨rfl, rfl, rfl, rfl, Finset.Insert.comm .., ?_⟩
  refine congrFun (congrArg _ (funext fun v => ?_)) _
  simp [Function.comp, he, Finset.erase_right_comm]

instance : LeftCommutative (fun (c : Cell) (s : AIState) => markMineKB s c) := by
  constructor
  intro c₁ c₂ s
  have he : ∀ (v : SVal) (a b : Cell),
      sentMarkMine (sentMarkMine v a) b = sentMarkMine (sentMarkMine v b) a := by
    intro v a b
    rcases eq_or_ne a b with rfl | hne
    · rfl
    · by_cases h₁ : a ∈ v.1 <;> by_cases h₂ : b ∈ v.1 <;>
        simp [sentMarkMine, h₁, h₂, Finset.mem_erase, hne, hne.symm, Finset.erase_right_comm]
  simp only [markMineKB, List.map_map]
  refine AIState.mk.injEq .. ▸ ⟨rfl, rfl, rfl, Finset.Insert.comm .., rfl, ?_⟩
  refine congrFun (congrArg _ (funext fun v => ?_)) _
  simp only [Function.comp]
  exact he v c₂ c₁

/-- Marks every cell of a finite set safe, one `mark_safe` call per cell
(the `for cell in check_new_safes.copy()` loop; the result does not depend on
the iteration order of the Python set). -/
def markSafeSet (s : AIState) (cs : Finset Cell) : AIState :=
  Multiset.foldr (fun c t => markSafeKB t c) s cs.val

/-- Marks every cell of a finite set as a mine, one `mark_mine` call per cell
(the `for cell in check_new_mines.copy()` loop). -/
def markMineSet (s : AIState) (cs : Finset Cell) : AIState :=
  Multiset.foldr (fun c t => markMineKB t c) s cs.val

/-- One iteration of step 4 of `add_knowledge` for the sentence at index `i`:
read the sentence from the current list, propagate its safe conclusions, then
re-read it (it may have shrunk) and propagate its mine conclusions. -/
def step4Visit (s : AIState) (i : ℕ) : AIState :=
  let v := s.knowledge.getD i (∅, 0)
  let s1 := match known_safes v with
    | some cs => markSafeSet s cs
    | none => s
  let v' := s1.knowledge.getD i (∅, 0)
  match known_mines v' with
  | some cs => markMineSet s1 cs
  | none => s1

/-- The step-4 scan over the knowledge list.  The list's length is fixed during
the scan (marking never adds or removes sentences), so the loop is a plain
index walk. -/
def step4Go : AIState → ℕ → ℕ → AIState
  | s, _, 0 => s
  | s, i, rem + 1 => step4Go (step4Visit s i) (i + 1) rem

/-- Step 4 of `add_knowledge`: scan all sentences, propagating resolved safe
and mine conclusions. -/
def step4 (s : AIState) : AIState :=
  step4Go s 0 s.knowledge.length

/-- Python `list.remove(x)`: delete the first element equal (by value) to `x`. -/
def removeFirst (v : SVal) : List TSent → List TSent
  | [] => []
  | t :: ts => if t.2 = v then ts else t :: removeFirst v ts

/-- The inner `for sentence_two in self.knowledge` loop of step 5, for a fixed
`sentence_one` (`s1`, captured when the outer loop fetched it - it may since
have been removed from the list).  `j` is the iterator's index; removals and
appends mutate the list under the iterator exactly as in Python.  Returns the
final list and tag counter, or `none` if the fuel runs out. -/
def innerLoop : ℕ → List TSent → ℕ → TSent → ℕ → Option (List TSent × ℕ)
  | 0, _, _, _, _ => none
  | fuel + 1, L, ctr, s1, j =>
    match L[j]? with
    | none => some (L, ctr)
    | some s2 =>
      if s1.1 = s2.1 then innerLoop fuel L ctr s1 (j + 1)
      else if s1.2 = s2.2 then innerLoop fuel (removeFirst s2.2 L) ctr s1 (j + 1)
      else if s1.2.1 ⊆ s2.2.1 then
        if (s2.2.1 \ s1.2.1, s2.2.2 - s1.2.2) ∈ L.map (fun t => t.2) then
          innerLoop fuel L ctr s1 (j + 1)
        else innerLoop fuel (L ++ [(ctr, (s2.2.1 \ s1.2.1, s2.2.2 - s1.2.2))]) (ctr + 1) s1 (j + 1)
      else innerLoop fuel L ctr s1 (j + 1)

/-- The outer `for sentence_one in self.knowledge` loop of step 5. -/
def outerLoop : ℕ → List TSent → ℕ → ℕ → Option (List TSent)
  | 0, _, _, _ => none
  | fuel + 1, L, ctr, i =>
    match L[i]? with
    | none => some L
    | some s1 =>
      match innerLoop fuel L ctr s1 0 with
      | none => none
      | some (L', ctr') => outerLoop fuel L' ctr' (i + 1)

/-- Step 5 of `add_knowledge`: the pairwise duplicate-removal and
subset-inference scan.  Distinct list elements are distinct Python objects, so
tagging by position at entry is faithful; fresh objects get fresh tags. -/
def step5 (fuel : ℕ) (know : List SVal) : Option (List SVal) :=
  (outerLoop fuel know.enum know.length 0).map (fun L => L.map (fun t => t.2))

/-- The nine positions visited by the neighborhood double loop of
`add_knowledge`, in Python's iteration order (the cell itself is skipped inside
the loop body, as in the source). -/
def nbhdList (cell : Cell) : List Cell :=
  [(cell.1 - 1, cell.2 - 1), (cell.1 - 1, cell.2), (cell.1 - 1, cell.2 + 1),
   (cell.1, cell.2 - 1), (cell.1, cell.2), (cell.1, cell.2 + 1),
   (cell.1 + 1, cell.2 - 1), (cell.1 + 1, cell.2), (cell.1 + 1, cell.2 + 1)]

/-- The body of the neighborhood loop: skip the cell itself; for an in-bounds
neighbor, add it to the undetermined set when it is in neither `moves_made` nor
`mines`, and otherwise decrement the count if it is a known mine. -/
def scanStep (s : AIState) (cell : Cell) (acc : Finset Cell × ℤ) (c : Cell) :
    Finset Cell × ℤ :=
  if c = cell then acc
  else if 0 ≤ c.1 ∧ c.1 < s.height ∧ 0 ≤ c.2 ∧ c.2 < s.width then
    if c ∉ s.moves_made ∧ c ∉ s.mines then (insert c acc.1, acc.2)
    else if c ∈ s.mines then (acc.1, acc.2 - 1)
    else acc
  else acc

/-- The neighborhood scan of `add_knowledge`: returns the undetermined cell set
and the adjusted count from which the new sentence is built. -/
def scanNbhd (s : AIState) (cell : Cell) (count : ℤ) : Finset Cell × ℤ :=
  (nbhdList cell).foldl (scanStep s cell) (∅, count)

/-- Mirrors `MinesweeperAI.add_knowledge`.  Steps: record the move, mark the
cell safe, build and append the neighborhood sentence, run the step-4
conclusion scan, then the step-5 pairwise scan (which needs fuel). -/
def addKnowledge (fuel : ℕ) (s : AIState) (cell : Cell) (count : ℤ) :
    Option AIState :=
  let s2 := markSafeKB { s with moves_made := insert cell s.moves_made } cell
  let p := scanNbhd s2 cell count
  let s3 := { s2 with knowledge := s2.knowledge ++ [p] }
  let s4 := step4 s3
  (step5 fuel s4.knowledge).map (fun L => { s4 with knowledge := L })

/-- The in-bounds neighborhood of a cell as a finite set: all cells within one
row and one column, distinct from the cell, inside the grid. -/
def nbhdSet (h w : ℤ) (cell : Cell) : Finset Cell :=
  ((Finset.Icc (cell.1 - 1) (cell.1 + 1)) ×ˢ (Finset.Icc (cell.2 - 1) (cell.2 + 1))).filter
    (fun c => c ≠ cell ∧ 0 ≤ c.1 ∧ c.1 < h ∧ 0 ≤ c.2 ∧ c.2 < w)

/-- The true number of mines adjacent to a cell, for a mine layout `μ`
(the board's `nearby_mines` oracle). -/
def trueNearby (μ : Finset Cell) (h w : ℤ) (cell : Cell) : ℤ :=
  (((nbhdSet h w cell).filter (fun c => c ∈ μ)).card : ℤ)

/-- A valid observation for mine layout `μ` on an `h × w` grid: the revealed
cell is in bounds, is not a mine, has not been played before, and the reported
count is the board's true adjacent-mine count. -/
def ValidObs (μ : Finset Cell) (h w : ℤ) (s : AIState) (cell : Cell) (count : ℤ) :
    Prop :=
  (0 ≤ cell.1 ∧ cell.1 < h ∧ 0 ≤ cell.2 ∧ cell.2 < w) ∧
    cell ∉ μ ∧ cell ∉ s.moves_made ∧ count = trueNearby μ h w cell

instance (μ : Finset Cell) (h w : ℤ) (s : AIState) (cell : Cell) (count : ℤ) :
    Decidable (ValidObs μ h w s cell count) :=
  decidable_of_iff ((0 ≤ cell.1 ∧ cell.1 < h ∧ 0 ≤ cell.2 ∧ cell.2 < w) ∧
    cell ∉ μ ∧ cell ∉ s.moves_made ∧ count = trueNearby μ h w cell) Iff.rfl

/-- The states reachable from the initial state by sequences of valid
observations (each processed by a completing `add_knowledge` call). -/
inductive Reachable (μ : Finset Cell) (h w : ℤ) : AIState → Prop
  | init : Reachable μ h w (initState h w)
  | step {s s' : AIState} {cell : Cell} {count : ℤ} {fuel : ℕ} :
      Reachable μ h w s → ValidObs μ h w s cell count →
      addKnowledge fuel s cell count = some s' → Reachable μ h w s'

/-! Soundness: every sentence a reachable knowledge base holds is true of the
board's mine layout, the recorded mines are real mines, and the recorded safe
cells are real non-mines. -/

/-- A sentence value is true of mine layout `μ` when its count is exactly the
number of its cells that are mines. -/
def TrueS (μ : Finset Cell) (v : SVal) : Prop := v.2 = ((v.1 ∩ μ).card : ℤ)

/-- The soundness invariant tying an AI state to the board's mine layout. -/
def Sound (μ : Finset Cell) (h w : ℤ) (s : AIState) : Prop :=
  s.height = h ∧ s.width = w ∧ (∀ v ∈ s.knowledge, TrueS μ v) ∧
    s.mines ⊆ μ ∧ (∀ c ∈ s.safes, c ∉ μ) ∧ s.moves_made ⊆ s.safes

/-! Soundness of a full `add_knowledge` call, and of every reachable state. -/

/-- The state reached by an `add_knowledge` call just before the step-5 scan:
the move recorded, the cell marked safe, the neighborhood sentence appended,
and the step-4 conclusion pass run. -/
def stage4 (s : AIState) (cell : Cell) (count : ℤ) : AIState :=
  let s2 := markSafeKB { s with moves_made := insert cell s.moves_made } cell
  step4 { s2 with knowledge := s2.knowledge ++ [scanNbhd s2 cell count] }

/-! Monotonicity: the derived sets only grow, the grid dimensions and the
played-move set are untouched by propagation, and propagation never changes the
number of sentences. -/

/-- `Grows s t`: state `t` results from `s` by marking only - same dimensions,
same moves, same number of sentences, and larger (or equal) derived sets. -/
def Grows (s t : AIState) : Prop :=
  t.height = s.height ∧ t.width = s.width ∧ t.moves_made = s.moves_made ∧
    t.knowledge.length = s.knowledge.length ∧ s.safes ⊆ t.safes ∧ s.mines ⊆ t.mines

/-! Concrete example traces used by the claim theorems below.  Each state is
obtained by running `add_knowledge` on a small grid; validity of every
observation against the stated mine layout is proved in the theorems. -/

/-- The state after observing cell `(0,0)` with count `0` on a mine-free
`2 × 2` grid: all four cells become known safe, and the neighborhood sentence,
emptied by the propagation, stays in the knowledge base. -/
def exS1 : AIState := (addKnowledge 64 (initState 2 2) (0, 0) 0).getD (initState 2 2)

/-- The state after a duplicate observation of `(0,0)` on top of `exS1`. -/
def exS1b : AIState := (addKnowledge 64 exS1 (0, 0) 0).getD (initState 2 2)

/-- On a `2 × 4` grid with a single mine at `(0,1)`: the state after observing
`(1,0)` with count `1`. -/
def exT1 : AIState := (addKnowledge 64 (initState 2 4) (1, 0) 1).getD (initState 2 4)

/-- The `2 × 4` trace continued: the state after additionally observing `(1,1)`
with count `1`. -/
def exT2 : AIState := (addKnowledge 64 exT1 (1, 1) 1).getD (initState 2 4)

/-- The state after observing the only cell of a `1 × 1` grid. -/
def exU1 : AIState := (addKnowledge 64 (initState 1 1) (0, 0) 0).getD (initState 1 1)

/-! Termination of the step-5 scan on sound knowledge bases.

The key facts: every sentence value occurring during the scan is true of the
layout and has its cells inside a fixed finite universe `U`, so there are at
most `|powerset U|` possible values; a value present in the list can never
disappear (Python's `remove` fires only when a live second copy is being
visited, and at least one copy always survives); hence every append introduces
a value never seen before.  This bounds the whole scan by the measure
`K = 3·length + 4·|missing values|`, which never increases, decreases by at
least one on every removal or append, and dominates the loop indices. -/

/-- The set of sentence values present in a tagged list. -/
def valsF (L : List TSent) : Finset SVal := (L.map (fun t => t.2)).toFinset

/-- All sentence values that are true of layout `μ` and live inside the cell
universe `U`: the value space of the scan. -/
def VU (μ U : Finset Cell) : Finset SVal :=
  U.powerset.image (fun S => (S, ((S ∩ μ).card : ℤ)))

/-- The scan measure: list length plus (weighted) number of values of the
value space still missing from the list. -/
def KK (μ U : Finset Cell) (L : List TSent) : ℕ :=
  3 * L.length + 4 * ((VU μ U) \ valsF L).card

/-- Number of live copies of value `u` in the list. -/
def liveC (u : SVal) (L : List TSent) : ℕ :=
  L.countP (fun t => decide (t.2 = u))

/-- Number of not-yet-visited elements carrying the value of `s1` but not its
identity: the potential future triggers of Python's `remove`. -/
def aheadC (s1 : TSent) (j : ℕ) (L : List TSent) : ℕ :=
  (L.drop j).countP (fun t => decide (t.2 = s1.2 ∧ t.1 ≠ s1.1))

/-- The union of all cells mentioned by a knowledge list: the universe within
which the step-5 scan operates. -/
def knowU (know : List SVal) : Finset Cell :=
  know.foldr (fun v acc => v.1 ∪ acc) ∅

/-! Basic record facts about the marking operations. -/

@[simp] theorem markSafeKB_height (s : AIState) (c : Cell) : (markSafeKB s c).height = s.height := rfl

@[simp] theorem markSafeKB_width (s : AIState) (c : Cell) : (markSafeKB s c).width = s.width := rfl

@[simp] theorem markSafeKB_moves (s : AIState) (c : Cell) : (markSafeKB s c).moves_made = s.moves_made := rfl

@[simp] theorem markSafeKB_mines (s : AIState) (c : Cell) : (markSafeKB s c).mines = s.mines := rfl

@[simp] theorem markSafeKB_safes (s : AIState) (c : Cell) : (markSafeKB s c).safes = insert c s.safes := rfl

@[simp] theorem markSafeKB_knowledge (s : AIState) (c : Cell) :
    (markSafeKB s c).knowledge = s.knowledge.map (fun v => sentMarkSafe v c) := rfl

@[simp] theorem markMineKB_height (s : AIState) (c : Cell) : (markMineKB s c).height = s.height := rfl

@[simp] theorem markMineKB_width (s : AIState) (c : Cell) : (markMineKB s c).width = s.width := rfl

@[simp] theorem markMineKB_moves (s : AIState) (c : Cell) : (markMineKB s c).moves_made = s.moves_made := rfl

@[simp] theorem markMineKB_mines (s : AIState) (c : Cell) : (markMineKB s c).mines = insert c s.mines := rfl

@[simp] theorem markMineKB_safes (s : AIState) (c : Cell) : (markMineKB s c).safes = s.safes := rfl

@[simp] theorem markMineKB_knowledge (s : AIState) (c : Cell) :
    (markMineKB s c).knowledge = s.knowledge.map (fun v => sentMarkMine v c) := rfl

/-! Characterization of the neighborhood scan: the loop builds exactly the
filtered neighborhood set and subtracts one from the count for each in-bounds
neighbor that is a known mine. -/

theorem scanStep_fst (s : AIState) (cell : Cell) (acc : Finset Cell × ℤ) (c : Cell) :
    (scanStep s cell acc c).1 =
      if c ≠ cell ∧ (0 ≤ c.1 ∧ c.1 < s.height ∧ 0 ≤ c.2 ∧ c.2 < s.width) ∧
          c ∉ s.moves_made ∧ c ∉ s.mines then insert c acc.1 else acc.1 := by
  by_cases h1 : c = cell
  · simp [scanStep, h1]
  · by_cases h2 : 0 ≤ c.1 ∧ c.1 < s.height ∧ 0 ≤ c.2 ∧ c.2 < s.width
    · by_cases h3 : c ∉ s.moves_made ∧ c ∉ s.mines
      · simp [scanStep, h1, h2, h3]
      · by_cases h4 : c ∈ s.mines
        · simp [scanStep, h1, h2, h3, h4]
        · have hm : c ∈ s.moves_made := by tauto
          simp [scanStep, h1, h2, h3, h4, hm]
    · simp [scanStep, h1, h2]

theorem scanStep_snd (s : AIState) (cell : Cell) (acc : Finset Cell × ℤ) (c : Cell) :
    (scanStep s cell acc c).2 =
      if c ≠ cell ∧ (0 ≤ c.1 ∧ c.1 < s.height ∧ 0 ≤ c.2 ∧ c.2 < s.width) ∧
          c ∈ s.mines then acc.2 - 1 else acc.2 := by
  by_cases h1 : c = cell
  · simp [scanStep, h1]
  · by_cases h2 : 0 ≤ c.1 ∧ c.1 < s.height ∧ 0 ≤ c.2 ∧ c.2 < s.width
    · by_cases h4 : c ∈ s.mines
      · have h3 : ¬ (c ∉ s.moves_made ∧ c ∉ s.mines) := by tauto
        simp [scanStep, h1, h2, h3, h4]
      · by_cases h3 : c ∉ s.moves_made ∧ c ∉ s.mines
        · simp [scanStep, h1, h2, h3, h4]
        · have hm : c ∈ s.moves_made := by tauto
          simp [scanStep, h1, h2, h3, h4, hm]
    · simp [scanStep, h1, h2]

theorem scanGo_fst (s : AIState) (cell : Cell) :
    ∀ (l : List Cell) (acc : Finset Cell × ℤ),
      (l.foldl (scanStep s cell) acc).1 =
        acc.1 ∪ l.toFinset.filter (fun c =>
          c ≠ cell ∧ (0 ≤ c.1 ∧ c.1 < s.height ∧ 0 ≤ c.2 ∧ c.2 < s.width) ∧
            c ∉ s.moves_made ∧ c ∉ s.mines)
  | [], acc => by simp
  | c :: t, acc => by
    rw [List.foldl_cons, scanGo_fst s cell t _, List.toFinset_cons, Finset.filter_insert]
    by_cases hc : c ≠ cell ∧ (0 ≤ c.1 ∧ c.1 < s.height ∧ 0 ≤ c.2 ∧ c.2 < s.width) ∧
        c ∉ s.moves_made ∧ c ∉ s.mines
    · rw [if_pos hc, scanStep_fst, if_pos hc, Finset.insert_union, Finset.union_insert]
    · rw [if_neg hc, scanStep_fst, if_neg hc]

theorem scanGo_snd (s : AIState) (cell : Cell) :
    ∀ (l : List Cell) (acc : Finset Cell × ℤ),
      (l.foldl (scanStep s cell) acc).2 =
        acc.2 - ((l.countP (fun c =>
          decide (c ≠ cell ∧ (0 ≤ c.1 ∧ c.1 < s.height ∧ 0 ≤ c.2 ∧ c.2 < s.width) ∧
            c ∈ s.mines))) : ℤ)
  | [], acc => by simp
  | c :: t, acc => by
    rw [List.foldl_cons, scanGo_snd s cell t _, List.countP_cons, scanStep_snd]
    by_cases hc : c ≠ cell ∧ (0 ≤ c.1 ∧ c.1 < s.height ∧ 0 ≤ c.2 ∧ c.2 < s.width) ∧
        c ∈ s.mines
    · rw [if_pos hc]
      simp [hc]
      ring
    · rw [if_neg hc]
      simp [hc]

theorem nbhdList_toFinset (cell : Cell) :
    (nbhdList cell).toFinset =
      (Finset.Icc (cell.1 - 1) (cell.1 + 1)) ×ˢ (Finset.Icc (cell.2 - 1) (cell.2 + 1)) := by
  ext c
  simp [nbhdList, Prod.ext_iff, Finset.mem_Icc]
  omega

theorem nbhdList_nodup (cell : Cell) : (nbhdList cell).Nodup := by
  simp [nbhdList, Prod.ext_iff]
  omega

theorem scanNbhd_fst (s : AIState) (cell : Cell) (count : ℤ) :
    (scanNbhd s cell count).1 =
      (nbhdSet s.height s.width cell).filter (fun c => c ∉ s.moves_made ∧ c ∉ s.mines) := by
  rw [scanNbhd, scanGo_fst, Finset.empty_union, nbhdList_toFinset, nbhdSet,
    Finset.filter_filter]
  exact Finset.filter_congr (fun c _ => by tauto)

theorem scanNbhd_snd (s : AIState) (cell : Cell) (count : ℤ) :
    (scanNbhd s cell count).2 =
      count - (((nbhdSet s.height s.width cell).filter (fun c => c ∈ s.mines)).card : ℤ) := by
  rw [scanNbhd, scanGo_snd]
  congr 2
  rw [List.countP_eq_length_filter,
    ← List.toFinset_card_of_nodup ((nbhdList_nodup cell).filter _), List.toFinset_filter,
    nbhdList_toFinset, nbhdSet, Finset.filter_filter]
  refine congrArg Finset.card (Finset.filter_congr (fun c _ => ?_))
  simp only [decide_eq_true_eq]
  tauto

theorem sentMarkSafe_eq (v : SVal) (c : Cell) : sentMarkSafe v c = (v.1.erase c, v.2) := by
  by_cases h : c ∈ v.1
  · simp [sentMarkSafe, h]
  · simp [sentMarkSafe, h, Finset.erase_eq_of_not_mem h]

theorem trueS_empty (μ : Finset Cell) : TrueS μ (∅, 0) := by
  simp [TrueS]

theorem trueS_sentMarkSafe {μ : Finset Cell} {v : SVal} {c : Cell} (hv : TrueS μ v)
    (hc : c ∉ μ) : TrueS μ (sentMarkSafe v c) := by
  rw [sentMarkSafe_eq, TrueS]
  have he : v.1.erase c ∩ μ = v.1 ∩ μ := by
    ext x
    simp only [Finset.mem_inter, Finset.mem_erase]
    constructor
    · tauto
    · rintro ⟨hx1, hx2⟩
      exact ⟨⟨fun hxc => hc (hxc ▸ hx2), hx1⟩, hx2⟩
  rw [he]
  exact hv

theorem trueS_sentMarkMine {μ : Finset Cell} {v : SVal} {c : Cell} (hv : TrueS μ v)
    (hc : c ∈ μ) : TrueS μ (sentMarkMine v c) := by
  by_cases hm : c ∈ v.1
  · have hmem : c ∈ v.1 ∩ μ := Finset.mem_inter.mpr ⟨hm, hc⟩
    have he : v.1.erase c ∩ μ = (v.1 ∩ μ).erase c := by
      ext x
      simp only [Finset.mem_inter, Finset.mem_erase]
      tauto
    have hcard : 1 ≤ (v.1 ∩ μ).card := Finset.card_pos.mpr ⟨c, hmem⟩
    rw [TrueS] at hv
    rw [sentMarkMine, if_pos hm, TrueS]
    simp only
    rw [he, Finset.card_erase_of_mem hmem]
    omega
  · rw [sentMarkMine, if_neg hm]
    exact hv

theorem trueS_sdiff {μ : Finset Cell} {A B : SVal} (hA : TrueS μ A) (hB : TrueS μ B)
    (hsub : A.1 ⊆ B.1) : TrueS μ (B.1 \ A.1, B.2 - A.2) := by
  rw [TrueS] at hA hB ⊢
  have h1 : (B.1 \ A.1) ∩ μ = (B.1 ∩ μ) \ (A.1 ∩ μ) := by
    ext x
    simp only [Finset.mem_inter, Finset.mem_sdiff]
    tauto
  have h2 : A.1 ∩ μ ⊆ B.1 ∩ μ := Finset.inter_subset_inter hsub (subset_refl μ)
  have h3 := Finset.card_le_card h2
  simp only
  rw [h1, Finset.card_sdiff h2]
  omega

theorem sound_markSafeKB {μ : Finset Cell} {h w : ℤ} {s : AIState} {c : Cell}
    (hs : Sound μ h w s) (hc : c ∉ μ) : Sound μ h w (markSafeKB s c) := by
  obtain ⟨h1, h2, h3, h4, h5, h6⟩ := hs
  refine ⟨h1, h2, ?_, h4, ?_, ?_⟩
  · intro v hv
    simp only [markSafeKB_knowledge, List.mem_map] at hv
    obtain ⟨u, hu, rfl⟩ := hv
    exact trueS_sentMarkSafe (h3 u hu) hc
  · intro x hx
    simp only [markSafeKB_safes, Finset.mem_insert] at hx
    rcases hx with rfl | hx
    · exact hc
    · exact h5 x hx
  · simp only [markSafeKB_moves, markSafeKB_safes]
    exact h6.trans (Finset.subset_insert c s.safes)

theorem sound_markMineKB {μ : Finset Cell} {h w : ℤ} {s : AIState} {c : Cell}
    (hs : Sound μ h w s) (hc : c ∈ μ) : Sound μ h w (markMineKB s c) := by
  obtain ⟨h1, h2, h3, h4, h5, h6⟩ := hs
  refine ⟨h1, h2, ?_, ?_, h5, h6⟩
  · intro v hv
    simp only [markMineKB_knowledge, List.mem_map] at hv
    obtain ⟨u, hu, rfl⟩ := hv
    exact trueS_sentMarkMine (h3 u hu) hc
  · simp only [markMineKB_mines]
    exact Finset.insert_subset hc h4

theorem sound_foldrSafe {μ : Finset Cell} {h w : ℤ} :
    ∀ (m : Multiset Cell) (s : AIState), Sound μ h w s → (∀ c ∈ m, c ∉ μ) →
      Sound μ h w (Multiset.foldr (fun c t => markSafeKB t c) s m) := by
  intro m
  induction m using Multiset.induction_on with
  | empty => intro s hs _; simpa using hs
  | cons a m ih =>
    intro s hs hall
    rw [Multiset.foldr_cons]
    exact sound_markSafeKB
      (ih s hs fun c hc => hall c (Multiset.mem_cons_of_mem hc))
      (hall _ (Multiset.mem_cons_self _ _))

theorem sound_foldrMine {μ : Finset Cell} {h w : ℤ} :
    ∀ (m : Multiset Cell) (s : AIState), Sound μ h w s → (∀ c ∈ m, c ∈ μ) →
      Sound μ h w (Multiset.foldr (fun c t => markMineKB t c) s m) := by
  intro m
  induction m using Multiset.induction_on with
  | empty => intro s hs _; simpa using hs
  | cons a m ih =>
    intro s hs hall
    rw [Multiset.foldr_cons]
    exact sound_markMineKB
      (ih s hs fun c hc => hall c (Multiset.mem_cons_of_mem hc))
      (hall _ (Multiset.mem_cons_self _ _))

theorem sound_markSafeSet {μ : Finset Cell} {h w : ℤ} {s : AIState} {cs : Finset Cell}
    (hs : Sound μ h w s) (hall : ∀ c ∈ cs, c ∉ μ) : Sound μ h w (markSafeSet s cs) :=
  sound_foldrSafe cs.val s hs (fun c hc => hall c hc)

theorem sound_markMineSet {μ : Finset Cell} {h w : ℤ} {s : AIState} {cs : Finset Cell}
    (hs : Sound μ h w s) (hall : ∀ c ∈ cs, c ∈ μ) : Sound μ h w (markMineSet s cs) :=
  sound_foldrMine cs.val s hs (fun c hc => hall c hc)

theorem trueS_getD {μ : Finset Cell} {l : List SVal} (hl : ∀ v ∈ l, TrueS μ v) (i : ℕ) :
    TrueS μ (l.getD i (∅, 0)) := by
  rw [List.getD_eq_getElem?_getD]
  cases hx : l[i]? with
  | none => exact trueS_empty μ
  | some v => exact hl v (List.getElem?_mem hx)

theorem sound_step4Visit {μ : Finset Cell} {h w : ℤ} {s : AIState} {i : ℕ}
    (hs : Sound μ h w s) : Sound μ h w (step4Visit s i) := by
  rw [step4Visit]
  have hv : TrueS μ (s.knowledge.getD i (∅, 0)) := trueS_getD hs.2.2.1 i
  set v := s.knowledge.getD i (∅, 0) with hvdef
  have hstep1 : Sound μ h w (match known_safes v with
      | some cs => markSafeSet s cs
      | none => s) := by
    rw [known_safes]
    by_cases hz : v.2 = 0
    · rw [if_pos hz]
      refine sound_markSafeSet hs (fun c hc hcμ => ?_)
      rw [TrueS, hz] at hv
      have : c ∈ v.1 ∩ μ := Finset.mem_inter.mpr ⟨hc, hcμ⟩
      have hcard : (v.1 ∩ μ).card = 0 := by omega
      rw [Finset.card_eq_zero] at hcard
      rw [hcard] at this
      exact absurd this (Finset.not_mem_empty c)
    · rw [if_neg hz]
      exact hs
  set s1 := (match known_safes v with
      | some cs => markSafeSet s cs
      | none => s) with hs1def
  have hv' : TrueS μ (s1.knowledge.getD i (∅, 0)) := trueS_getD hstep1.2.2.1 i
  set v' := s1.knowledge.getD i (∅, 0) with hv'def
  rw [known_mines]
  by_cases hm : v'.2 = (v'.1.card : ℤ)
  · rw [if_pos hm]
    refine sound_markMineSet hstep1 (fun c hc => ?_)
    rw [TrueS, hm] at hv'
    have hsub : v'.1 ∩ μ ⊆ v'.1 := Finset.inter_subset_left
    have hcard : v'.1.card ≤ (v'.1 ∩ μ).card := by omega
    have heq : v'.1 ∩ μ = v'.1 := Finset.eq_of_subset_of_card_le hsub hcard
    have : c ∈ v'.1 ∩ μ := heq.symm ▸ hc
    exact (Finset.mem_inter.mp this).2
  · rw [if_neg hm]
    exact hstep1

theorem sound_step4Go {μ : Finset Cell} {h w : ℤ} :
    ∀ (rem : ℕ) (s : AIState) (i : ℕ), Sound μ h w s → Sound μ h w (step4Go s i rem)
  | 0, _, _, hs => hs
  | rem + 1, _, i, hs => sound_step4Go rem _ (i + 1) (sound_step4Visit hs)

theorem sound_step4 {μ : Finset Cell} {h w : ℤ} {s : AIState} (hs : Sound μ h w s) :
    Sound μ h w (step4 s) :=
  sound_step4Go _ s 0 hs

/-! Truth of the freshly scanned neighborhood sentence. -/

theorem trueS_scanNbhd {μ : Finset Cell} {s : AIState} {cell : Cell} {count : ℤ}
    (hmines : s.mines ⊆ μ) (hmoves : ∀ c ∈ s.moves_made, c ∉ μ)
    (hcount : count = trueNearby μ s.height s.width cell) :
    TrueS μ (scanNbhd s cell count) := by
  rw [TrueS, scanNbhd_snd, scanNbhd_fst, hcount, trueNearby]
  set N := nbhdSet s.height s.width cell with hN
  have hA : (N.filter (fun c => c ∉ s.moves_made ∧ c ∉ s.mines)) ∩ μ =
      (N.filter (fun c => c ∈ μ)) \ (N.filter (fun c => c ∈ s.mines)) := by
    ext x
    simp only [Finset.mem_inter, Finset.mem_sdiff, Finset.mem_filter]
    constructor
    · rintro ⟨⟨hxN, hxm, hxk⟩, hxμ⟩
      exact ⟨⟨hxN, hxμ⟩, fun hk => hxk hk.2⟩
    · rintro ⟨⟨hxN, hxμ⟩, hk⟩
      exact ⟨⟨hxN, fun hmv => hmoves x hmv hxμ, fun hmn => hk ⟨hxN, hmn⟩⟩, hxμ⟩
  have hB : N.filter (fun c => c ∈ s.mines) ⊆ N.filter (fun c => c ∈ μ) := by
    intro x hx
    rw [Finset.mem_filter] at hx ⊢
    exact ⟨hx.1, hmines hx.2⟩
  have hcard := Finset.card_le_card hB
  rw [hA, Finset.card_sdiff hB]
  omega

/-! Structural facts about `removeFirst` and truth preservation through the
step-5 scan. -/

theorem removeFirst_sublist (v : SVal) : ∀ L : List TSent, List.Sublist (removeFirst v L) L
  | [] => List.Sublist.refl []
  | t :: ts => by
    rw [removeFirst]
    by_cases h : t.2 = v
    · rw [if_pos h]
      exact List.sublist_cons_self t ts
    · rw [if_neg h]
      exact (removeFirst_sublist v ts).cons₂ t

theorem removeFirst_subset {v : SVal} {L : List TSent} {t : TSent}
    (ht : t ∈ removeFirst v L) : t ∈ L :=
  (removeFirst_sublist v L).subset ht

theorem trueS_innerLoop {μ : Finset Cell} {s1 : TSent} :
    ∀ (fuel : ℕ) (L : List TSent) (ctr : ℕ) (j : ℕ) {L' : List TSent} {ctr' : ℕ},
      innerLoop fuel L ctr s1 j = some (L', ctr') → (∀ t ∈ L, TrueS μ t.2) →
      TrueS μ s1.2 → ∀ t ∈ L', TrueS μ t.2 := by
  intro fuel
  induction fuel with
  | zero => intro L ctr j L' ctr' hrun; simp [innerLoop] at hrun
  | succ n ih =>
    intro L ctr j L' ctr' hrun hall hs1
    rw [innerLoop] at hrun
    cases hL : L[j]? with
    | none =>
      rw [hL] at hrun
      simp only [Option.some.injEq, Prod.mk.injEq] at hrun
      obtain ⟨rfl, rfl⟩ := hrun
      exact hall
    | some s2 =>
      rw [hL] at hrun
      simp only at hrun
      have hs2 : s2 ∈ L := List.getElem?_mem hL
      split_ifs at hrun with hid heq hsub hmem
      · exact ih L ctr (j + 1) hrun hall hs1
      · refine ih (removeFirst s2.2 L) ctr (j + 1) hrun (fun t ht => ?_) hs1
        exact hall t (removeFirst_subset ht)
      · exact ih L ctr (j + 1) hrun hall hs1
      · refine ih _ (ctr + 1) (j + 1) hrun (fun t ht => ?_) hs1
        rcases List.mem_append.mp ht with ht | ht
        · exact hall t ht
        · rcases List.mem_singleton.mp ht with rfl
          exact trueS_sdiff hs1 (hall s2 hs2) hsub
      · exact ih L ctr (j + 1) hrun hall hs1

theorem trueS_outerLoop {μ : Finset Cell} :
    ∀ (fuel : ℕ) (L : List TSent) (ctr : ℕ) (i : ℕ) {L' : List TSent},
      outerLoop fuel L ctr i = some L' → (∀ t ∈ L, TrueS μ t.2) →
      ∀ t ∈ L', TrueS μ t.2 := by
  intro fuel
  induction fuel with
  | zero => intro L ctr i L' hrun; simp [outerLoop] at hrun
  | succ n ih =>
    intro L ctr i L' hrun hall
    rw [outerLoop] at hrun
    cases hL : L[i]? with
    | none =>
      rw [hL] at hrun
      simp only [Option.some.injEq] at hrun
      exact hrun ▸ hall
    | some s1 =>
      rw [hL] at hrun
      simp only at hrun
      cases hInner : innerLoop n L ctr s1 0 with
      | none => rw [hInner] at hrun; exact absurd hrun (by simp)
      | some p =>
        rw [hInner] at hrun
        simp only at hrun
        have hs1 : TrueS μ s1.2 := hall s1 (List.getElem?_mem hL)
        exact ih p.1 p.2 (i + 1) hrun (trueS_innerLoop n L ctr 0 hInner hall hs1)

theorem trueS_step5 {μ : Finset Cell} {fuel : ℕ} {know out : List SVal}
    (hrun : step5 fuel know = some out) (hall : ∀ v ∈ know, TrueS μ v) :
    ∀ v ∈ out, TrueS μ v := by
  rw [step5] at hrun
  rcases Option.map_eq_some'.mp hrun with ⟨L', hL', rfl⟩
  intro v hv
  rcases List.mem_map.mp hv with ⟨t, ht, rfl⟩
  refine trueS_outerLoop fuel know.enum know.length 0 hL' ?_ t ht
  intro u hu
  refine hall u.2 ?_
  have : u.2 ∈ know.enum.map (fun t => t.2) := List.mem_map_of_mem _ hu
  rwa [List.enum_map_snd] at this

theorem addKnowledge_eq (fuel : ℕ) (s : AIState) (cell : Cell) (count : ℤ) :
    addKnowledge fuel s cell count =
      (step5 fuel (stage4 s cell count).knowledge).map
        (fun L => { stage4 s cell count with knowledge := L }) := rfl

/-- Soundness of the state reached just before the step-5 scan. -/
theorem sound_stage4 {μ : Finset Cell} {h w : ℤ} {s : AIState} {cell : Cell}
    {count : ℤ} (hs : Sound μ h w s) (hobs : ValidObs μ h w s cell count) :
    Sound μ h w (stage4 s cell count) := by
  obtain ⟨hdim, hμ, hfresh, hcount⟩ := hobs
  obtain ⟨h1, h2, h3, h4, h5, h6⟩ := hs
  set sM : AIState := { s with moves_made := insert cell s.moves_made } with hsM
  set s2 : AIState := markSafeKB sM cell with hs2
  have hs2sound : Sound μ h w s2 := by
    refine ⟨h1, h2, ?_, h4, ?_, ?_⟩
    · intro v hv
      simp only [hs2, markSafeKB_knowledge, List.mem_map] at hv
      obtain ⟨u, hu, rfl⟩ := hv
      exact trueS_sentMarkSafe (h3 u hu) hμ
    · intro x hx
      simp only [hs2, markSafeKB_safes, Finset.mem_insert] at hx
      rcases hx with rfl | hx
      · exact hμ
      · exact h5 x hx
    · simp only [hs2, markSafeKB_moves, markSafeKB_safes, hsM]
      exact Finset.insert_subset_insert cell h6
  have hp : TrueS μ (scanNbhd s2 cell count) := by
    refine trueS_scanNbhd hs2sound.2.2.2.1 ?_ ?_
    · intro c hc
      simp only [hs2, markSafeKB_moves, hsM, Finset.mem_insert] at hc
      rcases hc with rfl | hc
      · exact hμ
      · exact h5 c (h6 hc)
    · rw [hs2sound.1, hs2sound.2.1]
      exact hcount
  set s3 : AIState := { s2 with knowledge := s2.knowledge ++ [scanNbhd s2 cell count] }
    with hs3
  have hs3sound : Sound μ h w s3 := by
    refine ⟨hs2sound.1, hs2sound.2.1, ?_, hs2sound.2.2.2.1, hs2sound.2.2.2.2.1,
      hs2sound.2.2.2.2.2⟩
    intro v hv
    simp only [hs3] at hv
    rcases List.mem_append.mp hv with hv | hv
    · exact hs2sound.2.2.1 v hv
    · rcases List.mem_singleton.mp hv with rfl
      exact hp
  exact sound_step4 hs3sound

theorem sound_addKnowledge {μ : Finset Cell} {h w : ℤ} {s s' : AIState} {cell : Cell}
    {count : ℤ} {fuel : ℕ} (hs : Sound μ h w s) (hobs : ValidObs μ h w s cell count)
    (hrun : addKnowledge fuel s cell count = some s') : Sound μ h w s' := by
  rw [addKnowledge] at hrun
  rcases Option.map_eq_some'.mp hrun with ⟨L, hL, rfl⟩
  have hs4sound := sound_stage4 hs hobs
  refine ⟨hs4sound.1, hs4sound.2.1, ?_, hs4sound.2.2.2.1, hs4sound.2.2.2.2.1,
    hs4sound.2.2.2.2.2⟩
  intro v hv
  exact trueS_step5 hL hs4sound.2.2.1 v hv

theorem sound_init (μ : Finset Cell) (h w : ℤ) : Sound μ h w (initState h w) := by
  refine ⟨rfl, rfl, ?_, ?_, ?_, ?_⟩
  · intro v hv
    simp [initState] at hv
  · simp [initState]
  · intro c hc
    simp [initState] at hc
  · simp [initState]

theorem sound_reachable {μ : Finset Cell} {h w : ℤ} {s : AIState}
    (hr : Reachable μ h w s) : Sound μ h w s := by
  induction hr with
  | init => exact sound_init μ h w
  | step hpre hobs hrun ih => exact sound_addKnowledge ih hobs hrun

theorem grows_refl (s : AIState) : Grows s s :=
  ⟨rfl, rfl, rfl, rfl, subset_refl _, subset_refl _⟩

theorem grows_trans {s t u : AIState} (h1 : Grows s t) (h2 : Grows t u) : Grows s u :=
  ⟨h2.1.trans h1.1, h2.2.1.trans h1.2.1, h2.2.2.1.trans h1.2.2.1,
    h2.2.2.2.1.trans h1.2.2.2.1, h1.2.2.2.2.1.trans h2.2.2.2.2.1,
    h1.2.2.2.2.2.trans h2.2.2.2.2.2⟩

theorem grows_markSafeKB (s : AIState) (c : Cell) : Grows s (markSafeKB s c) :=
  ⟨rfl, rfl, rfl, by simp, Finset.subset_insert c s.safes, subset_refl _⟩

theorem grows_markMineKB (s : AIState) (c : Cell) : Grows s (markMineKB s c) :=
  ⟨rfl, rfl, rfl, by simp, subset_refl _, Finset.subset_insert c s.mines⟩

theorem grows_foldrSafe :
    ∀ (m : Multiset Cell) (s : AIState),
      Grows s (Multiset.foldr (fun c t => markSafeKB t c) s m) := by
  intro m
  induction m using Multiset.induction_on with
  | empty => intro s; simpa using grows_refl s
  | cons a m ih =>
    intro s
    rw [Multiset.foldr_cons]
    exact grows_trans (ih s) (grows_markSafeKB _ a)

theorem grows_foldrMine :
    ∀ (m : Multiset Cell) (s : AIState),
      Grows s (Multiset.foldr (fun c t => markMineKB t c) s m) := by
  intro m
  induction m using Multiset.induction_on with
  | empty => intro s; simpa using grows_refl s
  | cons a m ih =>
    intro s
    rw [Multiset.foldr_cons]
    exact grows_trans (ih s) (grows_markMineKB _ a)

theorem grows_markSafeSet (s : AIState) (cs : Finset Cell) : Grows s (markSafeSet s cs) :=
  grows_foldrSafe cs.val s

theorem grows_markMineSet (s : AIState) (cs : Finset Cell) : Grows s (markMineSet s cs) :=
  grows_foldrMine cs.val s

theorem grows_step4Visit (s : AIState) (i : ℕ) : Grows s (step4Visit s i) := by
  rw [step4Visit]
  have h1 : Grows s (match known_safes (s.knowledge.getD i (∅, 0)) with
      | some cs => markSafeSet s cs
      | none => s) := by
    cases known_safes (s.knowledge.getD i (∅, 0)) with
    | none => exact grows_refl s
    | some cs => exact grows_markSafeSet s cs
  refine grows_trans h1 ?_
  cases known_mines ((match known_safes (s.knowledge.getD i (∅, 0)) with
      | some cs => markSafeSet s cs
      | none => s).knowledge.getD i (∅, 0)) with
  | none => exact grows_refl _
  | some cs => exact grows_markMineSet _ cs

theorem grows_step4Go :
    ∀ (rem : ℕ) (s : AIState) (i : ℕ), Grows s (step4Go s i rem)
  | 0, s, _ => grows_refl s
  | rem + 1, s, i =>
    grows_trans (grows_step4Visit s i) (grows_step4Go rem _ (i + 1))

theorem grows_step4 (s : AIState) : Grows s (step4 s) :=
  grows_step4Go _ s 0

/-- What a completing `add_knowledge` call does to the bookkeeping fields: the
observed cell is inserted into `moves_made` and into `safes`, nothing is ever
removed from `moves_made`, `safes` or `mines`, and the dimensions are kept. -/
theorem addKnowledge_fields {fuel : ℕ} {s s' : AIState} {cell : Cell} {count : ℤ}
    (hrun : addKnowledge fuel s cell count = some s') :
    s'.moves_made = insert cell s.moves_made ∧ s'.height = s.height ∧
      s'.width = s.width ∧ insert cell s.safes ⊆ s'.safes ∧ s.mines ⊆ s'.mines := by
  rw [addKnowledge] at hrun
  rcases Option.map_eq_some'.mp hrun with ⟨L, _, rfl⟩
  set s2 : AIState := markSafeKB { s with moves_made := insert cell s.moves_made } cell
    with hs2
  set s3 : AIState := { s2 with knowledge := s2.knowledge ++ [scanNbhd s2 cell count] }
    with hs3
  have hg : Grows s3 (step4 s3) := grows_step4 s3
  refine ⟨?_, ?_, ?_, ?_, ?_⟩
  · exact hg.2.2.1
  · exact hg.1
  · exact hg.2.1
  · exact hg.2.2.2.2.1
  · exact hg.2.2.2.2.2

/-- Claim C1, counterexample.  On a mine-free `2 × 2` grid, after the valid
observation `(0,0) ↦ 0` every cell is known safe but only `(0,0)` is in
`moves_made`.  Processing the next valid observation `(0,1) ↦ 0` builds its new
sentence from the neighborhood scan, and that sentence CONTAINS the known-safe
unplayed neighbor `(1,0)`: the code excludes only `moves_made` members and
known mines, not cells merely known safe, so the claim's "every neighbor
already known to be safe is excluded" is false. -/
theorem c1_counterexample :
    ValidObs ∅ 2 2 (initState 2 2) (0, 0) 0 ∧
    addKnowledge 64 (initState 2 2) (0, 0) 0 = some exS1 ∧
    ValidObs ∅ 2 2 exS1 (0, 1) 0 ∧
    ((1, 0) : Cell) ∈ exS1.safes ∧ ((1, 0) : Cell) ∉ exS1.moves_made ∧
    ((1, 0) : Cell) ∉ exS1.mines ∧
    ((1, 0) : Cell) ∈
      (scanNbhd (markSafeKB { exS1 with moves_made := insert (0, 1) exS1.moves_made }
        (0, 1)) (0, 1) 0).1 :=
  ⟨by decide, rfl, by decide, by decide, by decide, by decide, by decide⟩

/-- Claim C1, amended: the new sentence's cell set consists of exactly the
in-bounds neighbors that are neither in `moves_made` nor known mines (cells
known safe but not yet played are NOT excluded), and the effective count is the
reported count minus one per known-mine neighbor. -/
theorem c1_amended (s : AIState) (cell : Cell) (count : ℤ) :
    (scanNbhd s cell count).1 =
      (nbhdSet s.height s.width cell).filter (fun c => c ∉ s.moves_made ∧ c ∉ s.mines) ∧
    (scanNbhd s cell count).2 =
      count - (((nbhdSet s.height s.width cell).filter (fun c => c ∈ s.mines)).card : ℤ) :=
  ⟨scanNbhd_fst s cell count, scanNbhd_snd s cell count⟩

/-- Claim C2: evaluation of the code at the failing input.  On a `2 × 4` grid
with one mine at `(0,1)`, after the two valid observations `(1,0) ↦ 1` and
`(1,1) ↦ 1`, `add_knowledge` has returned with the sentence
`{(0,2),(1,2)} = 0` in the knowledge base while `(0,2)` is not in `safes`:
the sentence was derived by the subset pass after the single conclusion pass
had already run.  Re-running the conclusion pass (`step4`) changes the state,
so the knowledge base is NOT at a fixed point of the saturation pass when the
call returns. -/
theorem c2_not_fixed_point :
    ValidObs {((0 : ℤ), (1 : ℤ))} 2 4 (initState 2 4) (1, 0) 1 ∧
    addKnowledge 64 (initState 2 4) (1, 0) 1 = some exT1 ∧
    ValidObs {((0 : ℤ), (1 : ℤ))} 2 4 exT1 (1, 1) 1 ∧
    addKnowledge 64 exT1 (1, 1) 1 = some exT2 ∧
    (({((0 : ℤ), (2 : ℤ)), ((1 : ℤ), (2 : ℤ))} : Finset Cell), (0 : ℤ)) ∈ exT2.knowledge ∧
    ((0 : ℤ), (2 : ℤ)) ∉ exT2.safes ∧
    step4 exT2 ≠ exT2 :=
  ⟨by decide, rfl, by decide, rfl, by decide, by decide, by decide⟩

/-- Claim C3, counterexample.  Observing the only cell of a `1 × 1` grid is a
valid observation whose neighborhood is empty, and `add_knowledge` appends the
empty-cell-set sentence `∅ = 0` and returns with it still in the knowledge
base: a vacuous sentence IS retained. -/
theorem c3_counterexample :
    ValidObs ∅ 1 1 (initState 1 1) (0, 0) 0 ∧
    addKnowledge 64 (initState 1 1) (0, 0) 0 = some exU1 ∧
    exU1.knowledge = [(∅, 0)] ∧ ((∅ : Finset Cell), (0 : ℤ)) ∈ exU1.knowledge :=
  ⟨by decide, rfl, by decide, by decide⟩

/-- Claim C3, amended: the knowledge-base-level `mark_safe` and `mark_mine`
never remove a sentence - they only shrink sentences in place, so the number of
sentences is unchanged and sentences whose cell set becomes empty stay in the
knowledge base; `add_knowledge` likewise appends its freshly built sentence
unconditionally, even when the cell set is empty. -/
theorem c3_no_purge (s : AIState) (c : Cell) (cell : Cell) (count : ℤ) :
    (markSafeKB s c).knowledge.length = s.knowledge.length ∧
    (markMineKB s c).knowledge.length = s.knowledge.length ∧
    ({ s with knowledge := s.knowledge ++ [scanNbhd s cell count] }).knowledge.length =
      s.knowledge.length + 1 :=
  ⟨by simp, by simp, by simp⟩

/-- Claim C4: in every state reachable by valid observations, no cell is both
in `safes` and in `mines` - the two derived sets are disjoint.  This follows
from soundness: every recorded mine is a real mine of the layout and every
recorded safe cell is a real non-mine. -/
theorem c4_safe_mine_disjoint {μ : Finset Cell} {h w : ℤ} {s : AIState}
    (hr : Reachable μ h w s) : ∀ x : Cell, ¬ (x ∈ s.safes ∧ x ∈ s.mines) := by
  rintro x ⟨hxs, hxm⟩
  obtain ⟨-, -, -, h4, h5, -⟩ := sound_reachable hr
  exact h5 x hxs (h4 hxm)

/-- Claim C4, witness: the disjointness instantiated on the concrete reachable
state `exS1`. -/
theorem c4_witness : ¬ (((0, 1) : Cell) ∈ exS1.safes ∧ ((0, 1) : Cell) ∈ exS1.mines) :=
  c4_safe_mine_disjoint
    (Reachable.step Reachable.init
      (by decide : ValidObs ∅ 2 2 (initState 2 2) (0, 0) 0)
      (rfl : addKnowledge 64 (initState 2 2) (0, 0) 0 = some exS1)) (0, 1)

/-- Claim C5: every sentence in a reachable knowledge base satisfies
`0 ≤ count ≤ |cells|`.  Soundness gives `count = |cells ∩ μ|`, which is
trivially within the bounds. -/
theorem c5_count_bounds {μ : Finset Cell} {h w : ℤ} {s : AIState}
    (hr : Reachable μ h w s) : ∀ v ∈ s.knowledge, 0 ≤ v.2 ∧ v.2 ≤ (v.1.card : ℤ) := by
  intro v hv
  have ht := (sound_reachable hr).2.2.1 v hv
  rw [TrueS] at ht
  have hle : (v.1 ∩ μ).card ≤ v.1.card := Finset.card_le_card Finset.inter_subset_left
  omega

/-- Claim C5, witness: the bounds instantiated on the first sentence of the
concrete reachable state `exT1`. -/
theorem c5_witness :
    0 ≤ (exT1.knowledge.getD 0 (∅, 0)).2 ∧
      (exT1.knowledge.getD 0 (∅, 0)).2 ≤ ((exT1.knowledge.getD 0 (∅, 0)).1.card : ℤ) :=
  c5_count_bounds
    (Reachable.step Reachable.init
      (by decide : ValidObs {((0 : ℤ), (1 : ℤ))} 2 4 (initState 2 4) (1, 0) 1)
      (rfl : addKnowledge 64 (initState 2 4) (1, 0) 1 = some exT1))
    _ (by decide)

/-- Claim C7, counterexample.  In state `exS1` the cell `(0,0)` is already in
`moves_made`, yet calling `add_knowledge` for it again is not rejected: the
call completes normally (the source has no duplicate check and no error path),
and the sentence it rebuilds from the neighborhood again contains `(0,1)` - a
cell that had been purged from the knowledge base as known safe. -/
theorem c7_counterexample :
    ((0, 0) : Cell) ∈ exS1.moves_made ∧
    addKnowledge 64 exS1 (0, 0) 0 = some exS1b ∧
    ((0, 1) : Cell) ∈ exS1.safes ∧
    ((0, 1) : Cell) ∈
      (scanNbhd (markSafeKB { exS1 with moves_made := insert (0, 0) exS1.moves_made }
        (0, 0)) (0, 0) 0).1 :=
  ⟨by decide, rfl, by decide, by decide⟩

/-- Claim C7, amended: a duplicate observation is silently reprocessed, not
rejected; in particular `moves_made` is unchanged by the duplicate call
(the set insert is idempotent). -/
theorem c7_amended {fuel : ℕ} {s s' : AIState} {cell : Cell} {count : ℤ}
    (hdup : cell ∈ s.moves_made) (hrun : addKnowledge fuel s cell count = some s') :
    s'.moves_made = s.moves_made := by
  rw [(addKnowledge_fields hrun).1, Finset.insert_eq_self.mpr hdup]

/-- Claim C7, witness: the amended statement instantiated on the duplicate
observation of `(0,0)` in state `exS1`. -/
theorem c7_witness : exS1b.moves_made = exS1.moves_made :=
  c7_amended (by decide : ((0, 0) : Cell) ∈ exS1.moves_made)
    (rfl : addKnowledge 64 exS1 (0, 0) 0 = some exS1b)

/-- Claim C8, counterexample.  A knowledge base holding `A = {a,b,c} = 1`
(twice - a duplicate, as the dedup-while-iterating loop routinely produces) and
`B = {a,b,c,d} = 2` satisfies the claim's hypothesis, but after the subset pass
completes the knowledge base is `[A, B]` and the derived sentence `{d} = 1` was
never added: removing the duplicate shifted the list under the live iterator,
so the pair `(A, B)` was skipped. -/
theorem c8_counterexample :
    step5 64
      [({((0 : ℤ), (0 : ℤ)), ((0 : ℤ), (1 : ℤ)), ((0 : ℤ), (2 : ℤ))}, 1),
       ({((0 : ℤ), (0 : ℤ)), ((0 : ℤ), (1 : ℤ)), ((0 : ℤ), (2 : ℤ))}, 1),
       ({((0 : ℤ), (0 : ℤ)), ((0 : ℤ), (1 : ℤ)), ((0 : ℤ), (2 : ℤ)), ((0 : ℤ), (3 : ℤ))}, 2)] =
      some [({((0 : ℤ), (0 : ℤ)), ((0 : ℤ), (1 : ℤ)), ((0 : ℤ), (2 : ℤ))}, 1),
            ({((0 : ℤ), (0 : ℤ)), ((0 : ℤ), (1 : ℤ)), ((0 : ℤ), (2 : ℤ)), ((0 : ℤ), (3 : ℤ))}, 2)] ∧
    (({((0 : ℤ), (3 : ℤ))} : Finset Cell), (1 : ℤ)) ∉
      [({((0 : ℤ), (0 : ℤ)), ((0 : ℤ), (1 : ℤ)), ((0 : ℤ), (2 : ℤ))}, (1 : ℤ)),
       ({((0 : ℤ), (0 : ℤ)), ((0 : ℤ), (1 : ℤ)), ((0 : ℤ), (2 : ℤ)), ((0 : ℤ), (3 : ℤ))}, 2)] :=
  ⟨by decide, by decide⟩

/-- Claim C8, amended: when the knowledge base is exactly `[A, B]` with
`A = {a,b,c} = 1` and `B = {a,b,c,d} = 2` (no duplicate copies to disturb the
iteration), the subset pass does append the derived sentence `{d} = 1`.  In
general a subset pair yields its derived sentence only if the pair is actually
examined - duplicate removal shifts indices and can skip pairs - and the code
adds the derived sentence whenever it is not already present, without checking
it for vacuity. -/
theorem c8_amended :
    step5 64
      [({((0 : ℤ), (0 : ℤ)), ((0 : ℤ), (1 : ℤ)), ((0 : ℤ), (2 : ℤ))}, 1),
       ({((0 : ℤ), (0 : ℤ)), ((0 : ℤ), (1 : ℤ)), ((0 : ℤ), (2 : ℤ)), ((0 : ℤ), (3 : ℤ))}, 2)] =
      some [({((0 : ℤ), (0 : ℤ)), ((0 : ℤ), (1 : ℤ)), ((0 : ℤ), (2 : ℤ))}, 1),
            ({((0 : ℤ), (0 : ℤ)), ((0 : ℤ), (1 : ℤ)), ((0 : ℤ), (2 : ℤ)), ((0 : ℤ), (3 : ℤ))}, 2),
            ({((0 : ℤ), (3 : ℤ))}, 1)] := by
  decide

/-- Claim C9: across `add_knowledge` and the knowledge-base-level `mark_safe`
and `mark_mine`, the sets `moves_made`, `safes` and `mines` grow monotonically:
each post-state set contains the corresponding pre-state set. -/
theorem c9_monotone :
    (∀ (fuel : ℕ) (s : AIState) (cell : Cell) (count : ℤ) (s' : AIState),
        addKnowledge fuel s cell count = some s' →
          s.moves_made ⊆ s'.moves_made ∧ s.safes ⊆ s'.safes ∧ s.mines ⊆ s'.mines) ∧
    (∀ (s : AIState) (c : Cell),
        s.moves_made ⊆ (markSafeKB s c).moves_made ∧ s.safes ⊆ (markSafeKB s c).safes ∧
          s.mines ⊆ (markSafeKB s c).mines) ∧
    (∀ (s : AIState) (c : Cell),
        s.moves_made ⊆ (markMineKB s c).moves_made ∧ s.safes ⊆ (markMineKB s c).safes ∧
          s.mines ⊆ (markMineKB s c).mines) := by
  refine ⟨?_, ?_, ?_⟩
  · intro fuel s cell count s' hrun
    obtain ⟨hm, -, -, hsafe, hmine⟩ := addKnowledge_fields hrun
    refine ⟨?_, (Finset.subset_insert _ _).trans hsafe, hmine⟩
    rw [hm]
    exact Finset.subset_insert _ _
  · intro s c
    exact ⟨subset_refl _, Finset.subset_insert _ _, subset_refl _⟩
  · intro s c
    exact ⟨subset_refl _, subset_refl _, Finset.subset_insert _ _⟩

/-- Claim C9, witness: monotonicity instantiated on the concrete call taking
`exS1` to `exS1b`. -/
theorem c9_witness :
    exS1.moves_made ⊆ exS1b.moves_made ∧ exS1.safes ⊆ exS1b.safes ∧
      exS1.mines ⊆ exS1b.mines :=
  c9_monotone.1 64 exS1 (0, 0) 0 exS1b rfl

/-- Claim C10: for the vacuous sentence `∅ = 0`, `known_mines` and
`known_safes` both return a present (determined) result - the empty set - and
not the "not yet determined" `None`: the count equals the cell count (`0 = 0`)
and the count is zero, so both conditions hold simultaneously. -/
theorem c10_vacuous_resolves :
    known_mines ((∅ : Finset Cell), (0 : ℤ)) = some ∅ ∧
      known_safes ((∅ : Finset Cell), (0 : ℤ)) = some ∅ :=
  ⟨by decide, by decide⟩

theorem length_le_KK (μ U : Finset Cell) (L : List TSent) : L.length ≤ KK μ U L := by
  rw [KK]; omega

theorem mem_valsF {L : List TSent} {w : SVal} : w ∈ valsF L ↔ ∃ t ∈ L, t.2 = w := by
  rw [valsF, List.mem_toFinset, List.mem_map]

theorem liveC_pos {u : SVal} {L : List TSent} : 0 < liveC u L ↔ u ∈ valsF L := by
  rw [liveC, List.countP_pos_iff, mem_valsF]
  constructor
  · rintro ⟨t, ht, hp⟩; exact ⟨t, ht, by simpa using hp⟩
  · rintro ⟨t, ht, rfl⟩; exact ⟨t, ht, by simp⟩

theorem removeFirst_length {v : SVal} :
    ∀ {L : List TSent}, v ∈ valsF L → (removeFirst v L).length + 1 = L.length := by
  intro L
  induction L with
  | nil => intro hv; rw [mem_valsF] at hv; simp at hv
  | cons t ts ih =>
    intro hv
    rw [removeFirst]
    by_cases h : t.2 = v
    · rw [if_pos h]; simp
    · rw [if_neg h]
      have : v ∈ valsF ts := by
        rw [mem_valsF] at hv ⊢
        rcases hv with ⟨u, hu, rfl⟩
        rcases List.mem_cons.mp hu with rfl | hu
        · exact absurd rfl h
        · exact ⟨u, hu, rfl⟩
      simpa using ih this

theorem liveC_removeFirst_self {v : SVal} :
    ∀ {L : List TSent}, v ∈ valsF L → liveC v (removeFirst v L) + 1 = liveC v L := by
  intro L
  induction L with
  | nil => intro hv; rw [mem_valsF] at hv; simp at hv
  | cons t ts ih =>
    intro hv
    rw [removeFirst]
    by_cases h : t.2 = v
    · rw [if_pos h]
      simp [liveC, List.countP_cons, h]
    · rw [if_neg h]
      have hvts : v ∈ valsF ts := by
        rw [mem_valsF] at hv ⊢
        rcases hv with ⟨u, hu, rfl⟩
        rcases List.mem_cons.mp hu with rfl | hu
        · exact absurd rfl h
        · exact ⟨u, hu, rfl⟩
      have h3 := ih hvts
      simp only [liveC, List.countP_cons] at h3 ⊢
      simp only [h, decide_False]
      omega

theorem liveC_removeFirst_other {v w : SVal} (hne : w ≠ v) :
    ∀ (L : List TSent), liveC w (removeFirst v L) = liveC w L := by
  intro L
  induction L with
  | nil => rfl
  | cons t ts ih =>
    rw [removeFirst]
    by_cases h : t.2 = v
    · rw [if_pos h]
      have hnw : ¬ (t.2 = w) := fun hw => hne (hw ▸ h ▸ rfl)
      simp [liveC, List.countP_cons, hnw]
    · rw [if_neg h]
      simp only [liveC, List.countP_cons] at ih ⊢
      omega

theorem valsF_removeFirst {v : SVal} {L : List TSent} (h2 : 2 ≤ liveC v L) :
    valsF (removeFirst v L) = valsF L := by
  apply Finset.ext
  intro w
  by_cases hw : w = v
  · subst hw
    have hvin : w ∈ valsF L := liveC_pos.mp (by omega)
    have := liveC_removeFirst_self hvin
    constructor
    · intro _; exact hvin
    · intro _
      exact liveC_pos.mp (by omega)
  · rw [← liveC_pos, ← liveC_pos, liveC_removeFirst_other hw]

theorem removeFirst_drop {v : SVal} :
    ∀ (L : List TSent) (j : ℕ) (hj : j < L.length), (L.get ⟨j, hj⟩).2 = v →
      (removeFirst v L).drop j = L.drop (j + 1)
  | [], j, hj, _ => absurd hj (by simp)
  | t :: ts, j, hj, hval => by
    rw [removeFirst]
    by_cases h : t.2 = v
    · rw [if_pos h]
      rfl
    · rw [if_neg h]
      match j with
      | 0 => exact absurd hval h
      | j' + 1 =>
        have hj' : j' < ts.length := by simpa using hj
        have : (ts.get ⟨j', hj'⟩).2 = v := hval
        simpa using removeFirst_drop ts j' hj' this

theorem drop_append_le {α : Type} (l₁ l₂ : List α) :
    ∀ (n : ℕ), n ≤ l₁.length → (l₁ ++ l₂).drop n = l₁.drop n ++ l₂ := by
  induction l₁ with
  | nil =>
    intro n hn
    simp at hn
    simp [hn]
  | cons a t ih =>
    intro n hn
    match n with
    | 0 => simp
    | n' + 1 =>
      have hn' : n' ≤ t.length := by simpa using hn
      simpa using ih n' hn'

theorem countP_drop_succ_le (p : TSent → Bool) (L : List TSent) (j : ℕ) :
    (L.drop (j + 1)).countP p ≤ (L.drop j).countP p := by
  have h1 : L.drop (j + 1) = (L.drop j).tail := by
    rw [← List.drop_one, List.drop_drop]
  rw [h1]
  exact List.Sublist.countP_le _ (List.tail_sublist (L.drop j))

/-- Splitting a count along a second predicate. -/
theorem countP_split (p q : TSent → Bool) :
    ∀ (L : List TSent),
      L.countP p = L.countP (fun t => p t && q t) + L.countP (fun t => p t && !q t) := by
  intro L
  induction L with
  | nil => rfl
  | cons t ts ih =>
    rw [List.countP_cons, List.countP_cons, List.countP_cons]
    cases hp : p t <;> cases hq : q t <;> simp [hp, hq] <;> omega

/-- A freshly fetched `sentence_one` guarantees the trigger-counting
invariant: the copies of its value outnumber the upcoming non-identical
copies by at least one, because its own element is live. -/
theorem liveC_init {L : List TSent} {s1 : TSent} (hs1 : s1 ∈ L) :
    aheadC s1 0 L + 1 ≤ liveC s1.2 L := by
  have hsplit := countP_split (fun t => decide (t.2 = s1.2))
    (fun t => decide (t.1 = s1.1)) L
  have h1 : L.countP (fun t => decide (t.2 = s1.2) && ! decide (t.1 = s1.1)) =
      aheadC s1 0 L := by
    rw [aheadC, List.drop_zero]
    refine List.countP_congr (fun t _ => ?_)
    cases ht2 : decide (t.2 = s1.2) <;> cases ht1 : decide (t.1 = s1.1) <;>
      simp_all
  have h2 : 0 < L.countP (fun t => decide (t.2 = s1.2) && decide (t.1 = s1.1)) := by
    rw [List.countP_pos_iff]
    exact ⟨s1, hs1, by simp⟩
  rw [liveC]
  omega

theorem mem_VU {μ U : Finset Cell} {d : SVal} (ht : TrueS μ d) (hU : d.1 ⊆ U) :
    d ∈ VU μ U := by
  rw [VU, Finset.mem_image]
  refine ⟨d.1, Finset.mem_powerset.mpr hU, ?_⟩
  rw [TrueS] at ht
  calc (d.1, ((d.1 ∩ μ).card : ℤ)) = (d.1, d.2) := by rw [ht]
    _ = d := rfl

/-- The derived sentence of the subset branch never carries the value of
`sentence_one`: when `sentence_one` has cells, the derived cell set is disjoint
from them; when it is the (true) empty sentence, its count is zero and the
derived value equals `sentence_two`'s value, which is present in the list and
therefore excluded by the not-already-present guard. -/
theorem derived_ne {μ : Finset Cell} {s1 s2 : TSent} {L : List TSent}
    (hs1 : TrueS μ s1.2) (hsub : s1.2.1 ⊆ s2.2.1) (hs2 : s2 ∈ L)
    (hnm : (s2.2.1 \ s1.2.1, s2.2.2 - s1.2.2) ∉ L.map (fun t => t.2)) :
    (s2.2.1 \ s1.2.1, s2.2.2 - s1.2.2) ≠ s1.2 := by
  intro hd
  by_cases hA : s1.2.1 = (∅ : Finset Cell)
  · have hz : s1.2.2 = 0 := by
      rw [TrueS, hA] at hs1
      simpa using hs1
    have hds2 : (s2.2.1 \ s1.2.1, s2.2.2 - s1.2.2) = s2.2 := by
      rw [hA, hz]
      simp
    refine hnm ?_
    rw [hds2]
    exact List.mem_map_of_mem _ hs2
  · obtain ⟨x, hx⟩ := Finset.nonempty_iff_ne_empty.mpr hA
    have hfst : s2.2.1 \ s1.2.1 = s1.2.1 := congrArg Prod.fst hd
    have hx1 : x ∈ s2.2.1 \ s1.2.1 := hfst.symm ▸ hx
    exact (Finset.mem_sdiff.mp hx1).2 hx

/-- Unfolding equation of the inner loop at a live index. -/
theorem innerLoop_succ_some {n : ℕ} {L : List TSent} {ctr : ℕ} {s1 : TSent} {j : ℕ}
    {s2 : TSent} (hL : L[j]? = some s2) :
    innerLoop (n + 1) L ctr s1 j =
      if s1.1 = s2.1 then innerLoop n L ctr s1 (j + 1)
      else if s1.2 = s2.2 then innerLoop n (removeFirst s2.2 L) ctr s1 (j + 1)
      else if s1.2.1 ⊆ s2.2.1 then
        if (s2.2.1 \ s1.2.1, s2.2.2 - s1.2.2) ∈ L.map (fun t => t.2) then
          innerLoop n L ctr s1 (j + 1)
        else innerLoop n (L ++ [(ctr, (s2.2.1 \ s1.2.1, s2.2.2 - s1.2.2))]) (ctr + 1) s1 (j + 1)
      else innerLoop n L ctr s1 (j + 1) := by
  rw [innerLoop, hL]

/-- Termination of the inner loop, with the measure `K + (length - j)` and
the trigger-counting invariant: with sufficient fuel the loop completes, the
measure `K` does not increase, and every sentence in the final list is still
true and bounded by the universe. -/
theorem innerLoop_term {μ U : Finset Cell} {s1 : TSent} (hs1 : TrueS μ s1.2) :
    ∀ (n : ℕ) (L : List TSent) (ctr : ℕ) (j : ℕ),
      (∀ t ∈ L, TrueS μ t.2 ∧ t.2.1 ⊆ U) →
      aheadC s1 j L + 1 ≤ liveC s1.2 L →
      KK μ U L + (L.length - j) < n →
      ∃ L' ctr', innerLoop n L ctr s1 j = some (L', ctr') ∧ KK μ U L' ≤ KK μ U L ∧
        (∀ t ∈ L', TrueS μ t.2 ∧ t.2.1 ⊆ U) := by
  intro n
  induction n with
  | zero => intro L ctr j _ _ hm; omega
  | succ n ih =>
    intro L ctr j hall hinv hm
    cases hL : L[j]? with
    | none =>
      refine ⟨L, ctr, ?_, le_refl _, hall⟩
      rw [innerLoop, hL]
    | some s2 =>
      obtain ⟨hj, hjs⟩ := List.getElem?_eq_some_iff.mp hL
      have hs2mem : s2 ∈ L := List.getElem?_mem hL
      have hdropj : L.drop j = s2 :: L.drop (j + 1) := by
        rw [List.drop_eq_getElem_cons hj, hjs]
      by_cases hid : s1.1 = s2.1
      · -- identity: Python's `is` check skips the element
        have hahead : aheadC s1 j L = aheadC s1 (j + 1) L := by
          rw [aheadC, hdropj, List.countP_cons, aheadC]
          have hpred : ¬ (s2.2 = s1.2 ∧ s2.1 ≠ s1.1) := fun hc => hc.2 hid.symm
          simp [hpred]
        obtain ⟨L', ctr', hrun, hKK, hall'⟩ := ih L ctr (j + 1) hall (by omega) (by omega)
        refine ⟨L', ctr', ?_, hKK, hall'⟩
        rw [innerLoop_succ_some hL, if_pos hid]
        exact hrun
      · by_cases heq : s1.2 = s2.2
        · -- duplicate: remove the first element with this value
          have hvals2 : s2.2 ∈ valsF L := mem_valsF.mpr ⟨s2, hs2mem, rfl⟩
          have hahead : aheadC s1 j L = aheadC s1 (j + 1) L + 1 := by
            rw [aheadC, hdropj, List.countP_cons, aheadC]
            have hpred : s2.2 = s1.2 ∧ s2.1 ≠ s1.1 :=
              ⟨heq.symm, fun hc => hid hc.symm⟩
            simp [hpred]
          have hlive2 : 2 ≤ liveC s2.2 L := by
            rw [← heq]
            omega
          have hlen : (removeFirst s2.2 L).length + 1 = L.length :=
            removeFirst_length hvals2
          have hvalsEq : valsF (removeFirst s2.2 L) = valsF L :=
            valsF_removeFirst hlive2
          have hKKrem : KK μ U (removeFirst s2.2 L) + 3 = KK μ U L := by
            rw [KK, KK, hvalsEq]
            omega
          have hdrop1 : (removeFirst s2.2 L).drop j = L.drop (j + 1) := by
            refine removeFirst_drop L j hj ?_
            rw [List.get_eq_getElem, hjs]
          have hdrop2 : (removeFirst s2.2 L).drop (j + 1) = L.drop (j + 2) := by
            have e1 : (removeFirst s2.2 L).drop (j + 1) =
                ((removeFirst s2.2 L).drop j).drop 1 := by
              rw [List.drop_drop]
            rw [e1, hdrop1, List.drop_drop]
          have hlival : liveC s1.2 (removeFirst s2.2 L) + 1 = liveC s1.2 L := by
            rw [heq]
            exact liveC_removeFirst_self hvals2
          have hainv' : aheadC s1 (j + 1) (removeFirst s2.2 L) + 1 ≤
              liveC s1.2 (removeFirst s2.2 L) := by
            have e2 : aheadC s1 (j + 1) (removeFirst s2.2 L) ≤ aheadC s1 (j + 1) L := by
              rw [aheadC, hdrop2, aheadC]
              exact countP_drop_succ_le _ L (j + 1)
            omega
          have hall' : ∀ t ∈ removeFirst s2.2 L, TrueS μ t.2 ∧ t.2.1 ⊆ U :=
            fun t ht => hall t (removeFirst_subset ht)
          obtain ⟨L', ctr', hrun, hKK, hout⟩ := ih (removeFirst s2.2 L) ctr (j + 1)
            hall' hainv' (by omega)
          refine ⟨L', ctr', ?_, by omega, hout⟩
          rw [innerLoop_succ_some hL, if_neg hid, if_pos heq]
          exact hrun
        · -- distinct values: the element is not a trigger
          have hahead : aheadC s1 j L = aheadC s1 (j + 1) L := by
            rw [aheadC, hdropj, List.countP_cons, aheadC]
            have hpred : ¬ (s2.2 = s1.2 ∧ s2.1 ≠ s1.1) := fun hc => heq hc.1.symm
            simp [hpred]
          by_cases hsub : s1.2.1 ⊆ s2.2.1
          · by_cases hmem : (s2.2.1 \ s1.2.1, s2.2.2 - s1.2.2) ∈ L.map (fun t => t.2)
            · -- derived value already present: skip
              obtain ⟨L', ctr', hrun, hKK, hall'⟩ :=
                ih L ctr (j + 1) hall (by omega) (by omega)
              refine ⟨L', ctr', ?_, hKK, hall'⟩
              rw [innerLoop_succ_some hL, if_neg hid, if_neg heq, if_pos hsub, if_pos hmem]
              exact hrun
            · -- append the derived sentence with a fresh tag
              have hdT : TrueS μ (s2.2.1 \ s1.2.1, s2.2.2 - s1.2.2) :=
                trueS_sdiff hs1 (hall s2 hs2mem).1 hsub
              have hdU : (s2.2.1 \ s1.2.1, s2.2.2 - s1.2.2).1 ⊆ U :=
                Finset.sdiff_subset.trans (hall s2 hs2mem).2
              have hdV : (s2.2.1 \ s1.2.1, s2.2.2 - s1.2.2) ∈ VU μ U := mem_VU hdT hdU
              have hdnotin : (s2.2.1 \ s1.2.1, s2.2.2 - s1.2.2) ∉ valsF L := by
                rw [valsF, List.mem_toFinset]
                exact hmem
              have hdne : (s2.2.1 \ s1.2.1, s2.2.2 - s1.2.2) ≠ s1.2 :=
                derived_ne hs1 hsub hs2mem hmem
              set x : TSent := (ctr, (s2.2.1 \ s1.2.1, s2.2.2 - s1.2.2)) with hx
              have hvals' : valsF (L ++ [x]) =
                  insert (s2.2.1 \ s1.2.1, s2.2.2 - s1.2.2) (valsF L) := by
                rw [valsF, List.map_append, List.toFinset_append]
                rw [valsF]
                simp [Finset.union_comm, Finset.insert_eq]
              have hcardpos : 0 < ((VU μ U) \ valsF L).card :=
                Finset.card_pos.mpr ⟨_, Finset.mem_sdiff.mpr ⟨hdV, hdnotin⟩⟩
              have hKKapp : KK μ U (L ++ [x]) + 1 = KK μ U L := by
                rw [KK, KK, hvals', Finset.sdiff_insert,
                  Finset.card_erase_of_mem (Finset.mem_sdiff.mpr ⟨hdV, hdnotin⟩)]
                simp only [List.length_append, List.length_singleton]
                omega
              have hall' : ∀ t ∈ L ++ [x], TrueS μ t.2 ∧ t.2.1 ⊆ U := by
                intro t ht
                rcases List.mem_append.mp ht with ht | ht
                · exact hall t ht
                · rcases List.mem_singleton.mp ht with rfl
                  exact ⟨hdT, hdU⟩
              have hainv' : aheadC s1 (j + 1) (L ++ [x]) + 1 ≤
                  liveC s1.2 (L ++ [x]) := by
                have e1 : (L ++ [x]).drop (j + 1) = L.drop (j + 1) ++ [x] :=
                  drop_append_le L [x] (j + 1) (by omega)
                have e2 : aheadC s1 (j + 1) (L ++ [x]) = aheadC s1 (j + 1) L := by
                  rw [aheadC, e1, List.countP_append, aheadC]
                  have hpred : ¬ (x.2 = s1.2 ∧ x.1 ≠ s1.1) := fun hc => hdne hc.1
                  simp [hpred]
                have e3 : liveC s1.2 (L ++ [x]) = liveC s1.2 L := by
                  rw [liveC, List.countP_append, liveC]
                  have hpred : ¬ (x.2 = s1.2) := hdne
                  simp [hpred]
                omega
              obtain ⟨L', ctr', hrun, hKK, hout⟩ := ih (L ++ [x]) (ctr + 1) (j + 1)
                hall' hainv' (by simp only [List.length_append, List.length_singleton]; omega)
              refine ⟨L', ctr', ?_, by omega, hout⟩
              rw [innerLoop_succ_some hL, if_neg hid, if_neg heq, if_pos hsub, if_neg hmem]
              exact hrun
          · -- no subset relation: plain skip
            obtain ⟨L', ctr', hrun, hKK, hall'⟩ :=
              ih L ctr (j + 1) hall (by omega) (by omega)
            refine ⟨L', ctr', ?_, hKK, hall'⟩
            rw [innerLoop_succ_some hL, if_neg hid, if_neg heq, if_neg hsub]
            exact hrun

/-- Unfolding equation of the outer loop at a live index. -/
theorem outerLoop_succ_some {n : ℕ} {L : List TSent} {ctr : ℕ} {i : ℕ} {s1 : TSent}
    (hL : L[i]? = some s1) :
    outerLoop (n + 1) L ctr i =
      match innerLoop n L ctr s1 0 with
      | none => none
      | some (L', ctr') => outerLoop n L' ctr' (i + 1) := by
  rw [outerLoop, hL]

/-- Termination of the outer loop: on a list of true, universe-bounded
sentences, fuel `2K + (K - i) + 1` suffices. -/
theorem outerLoop_term {μ U : Finset Cell} :
    ∀ (n : ℕ) (L : List TSent) (ctr : ℕ) (i : ℕ),
      (∀ t ∈ L, TrueS μ t.2 ∧ t.2.1 ⊆ U) →
      2 * KK μ U L + (KK μ U L - i) + 1 ≤ n →
      ∃ L', outerLoop n L ctr i = some L' := by
  intro n
  induction n with
  | zero => intro L ctr i _ hm; omega
  | succ n ih =>
    intro L ctr i hall hm
    cases hL : L[i]? with
    | none =>
      refine ⟨L, ?_⟩
      rw [outerLoop, hL]
    | some s1 =>
      obtain ⟨hi, his⟩ := List.getElem?_eq_some_iff.mp hL
      have hs1mem : s1 ∈ L := List.getElem?_mem hL
      have hs1T : TrueS μ s1.2 := (hall s1 hs1mem).1
      have hlen : L.length ≤ KK μ U L := length_le_KK μ U L
      have hKi : i < KK μ U L := by omega
      obtain ⟨L', ctr', hrun, hKK, hall'⟩ :=
        innerLoop_term hs1T n L ctr 0 hall (liveC_init hs1mem) (by omega)
      obtain ⟨Lout, hout⟩ := ih L' ctr' (i + 1) hall' (by omega)
      refine ⟨Lout, ?_⟩
      rw [outerLoop_succ_some hL, hrun]
      exact hout

theorem subset_knowU : ∀ (know : List SVal), ∀ v ∈ know, v.1 ⊆ knowU know := by
  intro know
  induction know with
  | nil => intro v hv; simp at hv
  | cons a t ih =>
    intro v hv
    rcases List.mem_cons.mp hv with rfl | hv
    · exact Finset.subset_union_left
    · exact (ih v hv).trans Finset.subset_union_right

/-- Termination of step 5 on a knowledge base whose sentences are all true of
the layout: some fuel makes the scan complete. -/
theorem step5_term {μ : Finset Cell} {know : List SVal}
    (hall : ∀ v ∈ know, TrueS μ v) : ∃ fuel L', step5 fuel know = some L' := by
  set U := knowU know with hU
  set L0 : List TSent := know.enum with hL0
  have hallT : ∀ t ∈ L0, TrueS μ t.2 ∧ t.2.1 ⊆ U := by
    intro t ht
    have hsnd : t.2 ∈ know := by
      have : t.2 ∈ L0.map (fun t => t.2) := List.mem_map_of_mem _ ht
      rwa [hL0, List.enum_map_snd] at this
    exact ⟨hall t.2 hsnd, subset_knowU know t.2 hsnd⟩
  obtain ⟨L', hrun⟩ := outerLoop_term
    (2 * KK μ U L0 + (KK μ U L0 - 0) + 1) L0 know.length 0 hallT (le_refl _)
  exact ⟨2 * KK μ U L0 + (KK μ U L0 - 0) + 1, L'.map (fun t => t.2), by
    rw [step5, hrun, Option.map_some']⟩

/-- Claim C6: for any finite grid, any mine layout and any reachable state,
processing one more valid observation terminates - some fuel makes
`add_knowledge` complete.  The conclusion scan is a plain bounded walk; for
the pairwise scan, soundness confines every sentence value (original or
derived, under Python's remove-while-iterating and append-while-iterating
semantics) to the finite value space of true sentences over the knowledge
base's cell universe, a present value never disappears from the list, and
each append adds a missing value, which bounds the whole scan. -/
theorem c6_observe_terminates {μ : Finset Cell} {h w : ℤ} {s : AIState}
    (hr : Reachable μ h w s) (cell : Cell) (count : ℤ)
    (hobs : ValidObs μ h w s cell count) :
    ∃ fuel s', addKnowledge fuel s cell count = some s' := by
  have hs4 := sound_stage4 (sound_reachable hr) hobs
  obtain ⟨fuel, L', hL'⟩ := step5_term hs4.2.2.1
  refine ⟨fuel, { stage4 s cell count with knowledge := L' }, ?_⟩
  rw [addKnowledge_eq, hL']
  rfl

/-- Claim C6, witness: termination instantiated on the concrete reachable
state `exS1` and the valid observation `(0,1) ↦ 0`. -/
theorem c6_witness : ∃ fuel s', addKnowledge fuel exS1 (0, 1) 0 = some s' :=
  c6_observe_terminates
    (Reachable.step Reachable.init
      (by decide : ValidObs ∅ 2 2 (initState 2 2) (0, 0) 0)
      (rfl : addKnowledge 64 (initState 2 2) (0, 0) 0 = some exS1))
    (0, 1) 0 (by decide)

end MinesweeperAI
